import Mathlib

/-!
Verification of the syslog structured-data parsing module
(`src/structured_data.rs`).

Strings are modelled as `List Char` (Rust `&str` iterated by `char`; all
byte-level operations of the source act on ASCII delimiters, where the
two views coincide, and Rust's byte-lexicographic order on UTF-8 strings
coincides with codepoint-lexicographic order on the char sequence).
Fallible nom parsers are modelled as `Option`: `none` is a structural
parse failure (`nom::Err::Error`); no parser in this module ever produces
`nom::Err::Failure` or panics.  A successful parse `some (rest, value)`
carries the unconsumed remainder and the parsed value.
-/

abbrev Str := List Char

/-- The element type of `structured_data.rs`: an identifier plus the raw
(name, still-escaped value) parameter pairs, in source order. -/
structure StructuredElement where
  id : Str
  params : List (Str × Str)
deriving DecidableEq

/-- `nom::bytes::complete::tag`: the literal `t` must prefix the input;
returns the remainder. -/
def tagP : Str → Str → Option Str
  | [], i => some i
  | _ :: _, [] => none
  | t :: ts, c :: cs => if c = t then tagP ts cs else none

/-- Longest prefix of characters satisfying `p`, plus the remainder
(the splitting primitive behind `take_while1` / `take_till1` / `space0`). -/
def spanP (p : Char → Bool) : Str → Str × Str
  | [] => ([], [])
  | c :: cs =>
    if p c then
      let s := spanP p cs
      (c :: s.1, s.2)
    else ([], c :: cs)

/-- `nom::bytes::complete::take_till1 p`: consume one-or-more characters
up to (excluding) the first character satisfying `p`; fails if the first
character already satisfies `p` or the input is empty. -/
def take_till1 (p : Char → Bool) (i : Str) : Option (Str × Str) :=
  match spanP (fun c => !p c) i with
  | ([], _) => none
  | (tk, rest) => some (tk, rest)

/-- Rust nom `space0`: consume zero-or-more `' '` / `'\t'` characters,
returning the remainder. -/
def isSp (c : Char) : Bool := c = ' ' || c = '\t'

def space0 (i : Str) : Str := (spanP isSp i).2

/-- `take_until("]")`: consume up to (excluding) the first `']'`; fails if
there is none. -/
def take_until_rb (i : Str) : Option (Str × Str) :=
  match spanP (fun c => !(c = ']')) i with
  | (_, []) => none
  | (tk, rest) => some (tk, rest)

/-- The loop of `nom::bytes::complete::escaped(take_while1(|c| c != '\\' &&
c != '"'), '\\', anychar)` as used in `param_value`: scan from the current
position, consuming normal characters (anything but `\` and `"`) and opaque
two-character `\x` units; stop in front of a bare `"` (an error if nothing
was consumed yet, which is nom's `ErrorKind::Escaped` on an empty match);
a trailing lone `\` is an error; end of input consumes everything.
`acc` holds the characters consumed so far, reversed. -/
def escapedSDGo : Str → Str → Option (Str × Str)
  | acc, [] => some (acc.reverse, [])
  | acc, c :: rest =>
    if c = '\\' then
      match rest with
      | [] => none
      | d :: ds => escapedSDGo (d :: c :: acc) ds
    else if c = '"' then
      if acc = [] then none else some (acc.reverse, c :: rest)
    else escapedSDGo (c :: acc) rest

def escapedSD (i : Str) : Option (Str × Str) := escapedSDGo [] i

/-- `param_value`: a `"`-delimited raw value; empty string special-cased,
otherwise the `escaped` combinator between two quotes. -/
def param_value (input : Str) : Option (Str × Str) :=
  match tagP ['"', '"'] input with
  | some rest => some (rest, [])
  | none =>
    match tagP ['"'] input with
    | none => none
    | some i1 =>
      match escapedSD i1 with
      | none => none
      | some (inner, i2) =>
        match tagP ['"'] i2 with
        | none => none
        | some i3 => some (i3, inner)

/-- `param`: `name` `=` optional spaces `value`. -/
def param (input : Str) : Option (Str × (Str × Str)) :=
  match take_till1 (fun c => c = ']' || c = '=') input with
  | none => none
  | some (name, i1) =>
    match tagP ['='] i1 with
    | none => none
    | some i2 =>
      match param_value (space0 i2) with
      | none => none
      | some (i3, value) => some (i3, (name, value))

/-- One iteration step of `separated_list0(tag(" "), param)`: try the
separator then another `param`; on either failing, stop, leaving the input
positioned before the separator.  The fuel argument only bounds the loop:
every successful step consumes at least one character, so fuel equal to
the input length never runs out (see `param_consumes`). -/
def paramsLoop : Nat → Str → List (Str × Str) → Str × List (Str × Str)
  | 0, i, acc => (i, acc.reverse)
  | n + 1, i, acc =>
    match tagP [' '] i with
    | none => (i, acc.reverse)
    | some i1 =>
      match param i1 with
      | none => (i, acc.reverse)
      | some (i2, p) => paramsLoop n i2 (p :: acc)

/-- `separated_list0(tag(" "), param)`: zero-or-more params separated by
single spaces; never fails. -/
def sepList0Params (i : Str) : Str × List (Str × Str) :=
  match param i with
  | none => (i, [])
  | some (r, p) => paramsLoop r.length r [p]

/-- Rust `char::is_whitespace` (the Unicode White_Space set, by
codepoint). -/
def rustWS (c : Char) : Bool :=
  let n := c.toNat
  n = 0x9 || n = 0xA || n = 0xB || n = 0xC || n = 0xD || n = 0x20 ||
  n = 0x85 || n = 0xA0 || n = 0x1680 || (0x2000 <= n && n <= 0x200A) ||
  n = 0x2028 || n = 0x2029 || n = 0x202F || n = 0x205F || n = 0x3000

/-- `StructuredDatumParser::structured_datum_strict`: `[`, id
(one-or-more chars excluding whitespace, `]`, `=`), optional spaces,
space-separated params, `]`. -/
def structured_datum_strict (input : Str) : Option (Str × Option StructuredElement) :=
  match tagP ['['] input with
  | none => none
  | some i1 =>
    match take_till1 (fun c => rustWS c || c = ']' || c = '=') i1 with
    | none => none
    | some (idtk, i2) =>
      match sepList0Params (space0 i2) with
      | (i3, ps) =>
        match tagP [']'] i3 with
        | none => none
        | some i4 => some (i4, some ⟨idtk, ps⟩)

/-- `StructuredDatumParser::structured_datum_permissive`: the strict
grammar, falling back to `[` + `take_until("]")` + `]` mapped to no
element. -/
def structured_datum_permissive (input : Str) : Option (Str × Option StructuredElement) :=
  match structured_datum_strict input with
  | some r => some r
  | none =>
    match tagP ['['] input with
    | none => none
    | some i1 =>
      match take_until_rb i1 with
      | none => none
      | some (_, i2) =>
        match tagP [']'] i2 with
        | none => none
        | some i3 => some (i3, none)

/-- The grammar selected by `allow_failure` inside
`StructuredDatumParser::parse`. -/
def runGrammar (allow_failure : Bool) (input : Str) : Option (Str × Option StructuredElement) :=
  if allow_failure then structured_datum_permissive input
  else structured_datum_strict input

/-- `StructuredDatumParser::parse` (named without the `Parser` suffix):
run the configured grammar, then turn a genuine element with zero
parameters into an error when `allow_empty` is false. -/
def datumParse (allow_failure allow_empty : Bool) (input : Str) :
    Option (Str × Option StructuredElement) :=
  match runGrammar allow_failure input with
  | none => none
  | some (remaining, result) =>
    if !allow_empty && (match result with
                        | some element => element.params.isEmpty
                        | none => false) then
      none
    else some (remaining, result)

/-- The loop of `many1`: repeat `datumParse` until it fails, collecting
results.  As with `paramsLoop`, fuel never runs out because every
successful `datumParse` consumes at least one character
(see `datumParse_consumes`). -/
def manyLoop (af ae : Bool) : Nat → Str → List (Option StructuredElement) →
    Str × List (Option StructuredElement)
  | 0, i, acc => (i, acc.reverse)
  | n + 1, i, acc =>
    match datumParse af ae i with
    | none => (i, acc.reverse)
    | some (r, res) => manyLoop af ae n r (res :: acc)

/-- `many1(StructuredDatumParser::parse)`: first application must
succeed. -/
def many1Datum (af ae : Bool) (input : Str) : Option (Str × List (Option StructuredElement)) :=
  match datumParse af ae input with
  | none => none
  | some (r, res) => some (manyLoop af ae r.length r [res])

/-- `parse_structured_data`: the `-` NILVALUE shortcut, otherwise
`many1` with the `None` placeholders (discarded brackets) filtered out. -/
def parse_structured_data (af ae : Bool) (input : Str) :
    Option (Str × List StructuredElement) :=
  match tagP ['-'] input with
  | some r => some (r, [])
  | none =>
    match many1Datum af ae input with
    | none => none
    | some (r, items) => some (r, items.filterMap id)

/-- `structured_data` — the lenient profile
(`allow_failure = true, allow_empty = true`). -/
def structured_data (input : Str) : Option (Str × List StructuredElement) :=
  parse_structured_data true true input

/-- `structured_data_optional` — the strict profile
(`allow_failure = false, allow_empty = false`). -/
def structured_data_optional (input : Str) : Option (Str × List StructuredElement) :=
  parse_structured_data false false input

/-- The per-value escape-stripping loop in `ParamsIter::next`, processing
characters with an `escaped` flag. -/
def decodeValueGo : Bool → Str → Str
  | _, [] => []
  | escaped, c :: rest =>
    if c = '\\' && !escaped then decodeValueGo true rest
    else if c = 'n' && escaped then '\n' :: decodeValueGo false rest
    else if !(c = '"') && !(c = ']') && !(c = '\\') && escaped then
      '\\' :: c :: decodeValueGo false rest
    else c :: decodeValueGo false rest

def decodeValue (v : Str) : Str := decodeValueGo false v

/-- The sequence produced by collecting `StructuredElement::params()`
(the `ParamsIter` iterator): each raw value decoded by the escape state
machine. -/
def decodedParams (e : StructuredElement) : List (Str × Str) :=
  e.params.map (fun p => (p.1, decodeValue p.2))

/-- The value of the decoder's `escaped` flag after processing the input,
starting from flag `s` (it is set by an unescaped `\` and cleared by every
other step of `ParamsIter::next`). -/
def escAtEndGo : Bool → Str → Bool
  | s, [] => s
  | s, c :: rest => escAtEndGo (c = '\\' && !s) rest

/-- `impl Display for StructuredElement`, parameter part: for each pair,
`' '` + name + `="` + raw value + `"`. -/
def renderParams : List (Str × Str) → Str
  | [] => []
  | (n, v) :: rest => ' ' :: (n ++ '=' :: '"' :: (v ++ '"' :: renderParams rest))

/-- `impl Display for StructuredElement`: `[` + id + params + `]`. -/
def renderSD (e : StructuredElement) : Str :=
  '[' :: (e.id ++ (renderParams e.params ++ [']']))

/-- Lexicographic order on `List Char`, matching `Ord for &str`
(byte-lexicographic on UTF-8, which agrees with codepoint order). -/
def strLeB : Str → Str → Bool
  | [], _ => true
  | _ :: _, [] => false
  | a :: as, b :: bs => if a < b then true else if b < a then false else strLeB as bs

/-- Lexicographic order on pairs, matching `Ord for (S, S)`. -/
def pairLeB (p q : Str × Str) : Bool :=
  if strLeB p.1 q.1 then (if strLeB q.1 p.1 then strLeB p.2 q.2 else true) else false

def pairLe (p q : Str × Str) : Prop := pairLeB p q = true

instance : DecidableRel pairLe := fun p q => inferInstanceAs (Decidable (pairLeB p q = true))

/-- `Vec::sort` on the parameter list.  Rust's sort is stable, and for the
total order `pairLe` every correct sort produces the same list (equal
elements are indistinguishable), so insertion sort computes the same
result. -/
def sortParams (l : List (Str × Str)) : List (Str × Str) := l.insertionSort pairLe

/-- `impl PartialEq for StructuredElement`: ids equal, then the two sorted
parameter lists zipped (stopping at the shorter) must agree pairwise. -/
def elemEq (e1 e2 : StructuredElement) : Bool :=
  if e1.id = e2.id then
    ((sortParams e1.params).zip (sortParams e2.params)).all
      (fun pq => pq.1.1 == pq.2.1 && pq.1.2 == pq.2.2)
  else false

/-- Well-escaped raw text: a sequence of units, each either a single
character other than `\` and `"`, or `\` followed by any character.
This is the shape of every raw value the value grammar can produce. -/
def EscOkB : Str → Bool
  | [] => true
  | c :: rest =>
    if c = '\\' then
      match rest with
      | [] => false
      | _ :: ds => EscOkB ds
    else if c = '"' then false
    else EscOkB rest

/-- Character allowed in an element id by `structured_datum_strict`. -/
def goodIdChar (c : Char) : Bool := !(rustWS c || c = ']' || c = '=')

/-- Character allowed in a parameter name by `param`. -/
def goodNameChar (c : Char) : Bool := !(c = ']' || c = '=')

/-- Invariant of a single parsed parameter pair. -/
def GoodPair (p : Str × Str) : Prop :=
  p.1 ≠ [] ∧ (∀ c ∈ p.1, goodNameChar c = true) ∧ EscOkB p.2 = true

/-- The first parsed parameter's name starts right after a maximal
`space0`, so it cannot begin with a space or tab. -/
def GoodFirst : List (Str × Str) → Prop
  | [] => True
  | p :: _ => ∀ c cs, p.1 = c :: cs → isSp c = false

/-- Invariant of every genuine element produced by the recognizer. -/
def GoodElem (e : StructuredElement) : Prop :=
  e.id ≠ [] ∧ (∀ c ∈ e.id, goodIdChar c = true) ∧
  (∀ p ∈ e.params, GoodPair p) ∧ GoodFirst e.params

/-- Modelled from the spec (§4.1): scan for the first closing `"` after
the opening quote, where `\` followed by any single character is an
opaque two-character unit that is skipped; returns the inner text and the
text after the closing quote, or nothing when no closing quote exists. -/
def findClose : Str → Option (Str × Str)
  | [] => none
  | c :: rest =>
    if c = '"' then some ([], rest)
    else if c = '\\' then
      match rest with
      | [] => none
      | d :: ds => (findClose ds).map (fun p => ('\\' :: d :: p.1, p.2))
    else (findClose rest).map (fun p => (c :: p.1, p.2))

/-- Modelled from the spec (§4.1): the value grammar succeeds exactly on
inputs beginning with `"` that contain a closing unescaped `"`, yielding
the still-escaped inner text and the remainder; any other input is a
structural parse failure. -/
def specParamValue (input : Str) : Option (Str × Str) :=
  match input with
  | '"' :: rest =>
    match findClose rest with
    | some (inner, r) => some (r, inner)
    | none => none
  | _ => none

example : structured_data ("-".toList) = some ([], []) := by decide
example : structured_data ("[abc][id aa=]".toList) = some ([], [⟨"abc".toList, []⟩]) := by decide
example : structured_data_optional ("[abc] message".toList) = none := by decide

/-! ### Basic lemmas about the parsing primitives -/

theorem tagP_self_append (t s : Str) : tagP t (t ++ s) = some s := by
  induction t with
  | nil => rfl
  | cons c cs ih => simp [tagP, ih]

theorem tagP_eq_some {t i r : Str} (h : tagP t i = some r) : i = t ++ r := by
  induction t generalizing i with
  | nil => simp [tagP] at h; simp [h]
  | cons c cs ih =>
    cases i with
    | nil => simp [tagP] at h
    | cons d ds =>
      by_cases hdc : d = c
      · subst hdc
        simp only [tagP, if_pos rfl] at h
        simpa using ih h
      · simp [tagP, hdc] at h

theorem spanP_eq (p : Char → Bool) (i : Str) :
    i = (spanP p i).1 ++ (spanP p i).2 ∧
    (∀ c ∈ (spanP p i).1, p c = true) ∧
    (∀ c cs, (spanP p i).2 = c :: cs → p c = false) := by
  induction i with
  | nil => simp [spanP]
  | cons c rest ih =>
    by_cases h : p c = true
    · simp only [spanP, h, if_true]
      refine ⟨by simpa using ih.1, ?_, by simpa using ih.2.2⟩
      intro d hd
      rcases List.mem_cons.mp hd with h1 | h1
      · simpa [h1] using h
      · exact ih.2.1 d h1
    · simp only [spanP, h, if_false]
      refine ⟨rfl, by simp, ?_⟩
      intro d ds hd
      cases hd
      simpa using h

theorem spanP_split (p : Char → Bool) {a b : Str} (ha : ∀ c ∈ a, p c = true)
    (hb : ∀ c cs, b = c :: cs → p c = false) : spanP p (a ++ b) = (a, b) := by
  induction a with
  | nil =>
    cases b with
    | nil => simp [spanP]
    | cons c cs => simp [spanP, hb c cs rfl]
  | cons c as ih =>
    have hc : p c = true := ha c (by simp)
    have hrest : ∀ d ∈ as, p d = true := fun d hd => ha d (by simp [hd])
    simp [spanP, hc, ih hrest]

theorem take_till1_eq_some {p : Char → Bool} {i tk rest : Str}
    (h : take_till1 p i = some (tk, rest)) :
    tk ≠ [] ∧ i = tk ++ rest ∧ (∀ c ∈ tk, p c = false) ∧
    (∀ c cs, rest = c :: cs → p c = true) := by
  have hs := spanP_eq (fun c => !p c) i
  unfold take_till1 at h
  rcases hspan : spanP (fun c => !p c) i with ⟨a, b⟩
  rw [hspan] at h hs
  cases a with
  | nil => simp at h
  | cons x xs =>
    simp only [Option.some.injEq, Prod.mk.injEq] at h
    obtain ⟨h1, h2⟩ := h
    subst h1; subst h2
    refine ⟨by simp, hs.1, ?_, ?_⟩
    · intro c hc
      have := hs.2.1 c hc
      simpa using this
    · intro c cs hc
      have := hs.2.2 c cs hc
      simpa using this

theorem take_till1_split (p : Char → Bool) {a b : Str} (hne : a ≠ [])
    (ha : ∀ c ∈ a, p c = false)
    (hb : ∀ c cs, b = c :: cs → p c = true) : take_till1 p (a ++ b) = some (a, b) := by
  have : spanP (fun c => !p c) (a ++ b) = (a, b) := by
    refine spanP_split _ (fun c hc => by simp [ha c hc]) ?_
    intro c cs hc
    simp [hb c cs hc]
  unfold take_till1
  rw [this]
  cases a with
  | nil => exact absurd rfl hne
  | cons x xs => rfl

theorem space0_append {a b : Str} (ha : ∀ c ∈ a, isSp c = true)
    (hb : ∀ c cs, b = c :: cs → isSp c = false) : space0 (a ++ b) = b := by
  unfold space0
  rw [spanP_split isSp ha hb]

theorem space0_length (i : Str) : (space0 i).length ≤ i.length := by
  have h := congrArg List.length (spanP_eq isSp i).1
  rw [List.length_append] at h
  unfold space0
  omega

/-! ### The `escaped` combinator -/

theorem EscOkB_pair (d : Char) (ds : Str) : EscOkB ('\\' :: d :: ds) = EscOkB ds := rfl

theorem EscOkB_other (c : Char) (ds : Str) (hc : ¬c = '\\') (hq : ¬c = '"') :
    EscOkB (c :: ds) = EscOkB ds := by
  rw [EscOkB.eq_def]
  simp [hc, hq]

theorem escapedSDGo_nil (acc : Str) : escapedSDGo acc [] = some (acc.reverse, []) := rfl

theorem escapedSDGo_bs_nil (acc : Str) : escapedSDGo acc ['\\'] = none := rfl

theorem escapedSDGo_bs (acc : Str) (d : Char) (ds : Str) :
    escapedSDGo acc ('\\' :: d :: ds) = escapedSDGo (d :: '\\' :: acc) ds := rfl

theorem escapedSDGo_quote (acc rest : Str) :
    escapedSDGo acc ('"' :: rest) =
      if acc = [] then none else some (acc.reverse, '"' :: rest) := by
  rw [escapedSDGo.eq_def]
  norm_num
  exact fun h => absurd h (by decide)

theorem escapedSDGo_other (acc : Str) (c : Char) (rest : Str)
    (hc : ¬c = '\\') (hq : ¬c = '"') :
    escapedSDGo acc (c :: rest) = escapedSDGo (c :: acc) rest := by
  rw [escapedSDGo.eq_def]
  simp [hc, hq]

theorem escapedSDGo_sound : ∀ acc i, ∀ out rest, escapedSDGo acc i = some (out, rest) →
    ∃ v, i = v ++ rest ∧ out = acc.reverse ++ v ∧ EscOkB v = true ∧
      (rest = [] ∨ ∃ cs, rest = '"' :: cs) := by
  intro acc i
  induction acc, i using escapedSDGo.induct with
  | case1 acc =>
    intro out rest h
    rw [escapedSDGo_nil] at h
    simp only [Option.some.injEq, Prod.mk.injEq] at h
    exact ⟨[], by simp [h.2.symm], by simp [h.1.symm], rfl, Or.inl h.2.symm⟩
  | case2 acc =>
    intro out rest h
    rw [escapedSDGo_bs_nil] at h
    exact absurd h (by simp)
  | case3 acc d ds ih =>
    intro out rest2 h
    rw [escapedSDGo_bs] at h
    obtain ⟨v, hv1, hv2, hv3, hv4⟩ := ih out rest2 h
    refine ⟨'\\' :: d :: v, by simp [hv1], by simp [hv2], ?_, hv4⟩
    rw [EscOkB_pair]
    exact hv3
  | case4 rest hq =>
    intro out rest2 h
    rw [escapedSDGo_quote, if_pos rfl] at h
    exact absurd h (by simp)
  | case5 acc rest hacc hq =>
    intro out rest2 h
    rw [escapedSDGo_quote, if_neg hacc] at h
    simp only [Option.some.injEq, Prod.mk.injEq] at h
    exact ⟨[], by simp [h.2.symm], by simp [h.1.symm], rfl, Or.inr ⟨rest, h.2.symm⟩⟩
  | case6 acc c rest hc hq ih =>
    intro out rest2 h
    rw [escapedSDGo_other acc c rest hc hq] at h
    obtain ⟨v, hv1, hv2, hv3, hv4⟩ := ih out rest2 h
    refine ⟨c :: v, by simp [hv1], by simp [hv2], ?_, hv4⟩
    rw [EscOkB_other c v hc hq]
    exact hv3

theorem EscOkB_quote (rest : Str) : EscOkB ('"' :: rest) = false := by
  rw [EscOkB.eq_def]
  norm_num
  exact fun h => absurd h (by decide)

theorem EscOkB_head_ne_quote {c : Char} {cs : Str} (h : EscOkB (c :: cs) = true) :
    ¬c = '"' := by
  intro hq
  subst hq
  rw [EscOkB_quote] at h
  exact absurd h (by simp)

theorem escapedSDGo_render : ∀ v, EscOkB v = true → ∀ acc s, (acc = [] → v ≠ []) →
    escapedSDGo acc (v ++ '"' :: s) = some (acc.reverse ++ v, '"' :: s) := by
  intro v
  induction v using EscOkB.induct with
  | case1 =>
    intro _ acc s hacc
    have hne : ¬acc = [] := fun he => (hacc he) rfl
    simp only [List.nil_append]
    rw [escapedSDGo_quote, if_neg hne]
    simp
  | case2 =>
    intro hE
    rw [EscOkB.eq_def] at hE
    simp at hE
  | case3 d ds ih =>
    intro hE acc s _
    rw [EscOkB_pair] at hE
    have step : ('\\' :: d :: ds) ++ '"' :: s = '\\' :: d :: (ds ++ '"' :: s) := by simp
    rw [step, escapedSDGo_bs]
    rw [ih hE (d :: '\\' :: acc) s (by simp)]
    simp
  | case4 rest _ =>
    intro hE
    rw [EscOkB_quote] at hE
    exact absurd hE (by simp)
  | case5 c rest hc hq ih =>
    intro hE acc s _
    rw [EscOkB_other c rest hc hq] at hE
    have step : (c :: rest) ++ '"' :: s = c :: (rest ++ '"' :: s) := by simp
    rw [step, escapedSDGo_other acc c _ hc hq]
    rw [ih hE (c :: acc) s (by simp)]
    simp

/-! ### The value and parameter grammars -/

theorem param_value_sound {i r v : Str} (h : param_value i = some (r, v)) :
    EscOkB v = true ∧ i = '"' :: (v ++ '"' :: r) := by
  unfold param_value at h
  rcases h1 : tagP ['"', '"'] i with _ | rest
  · simp only [h1] at h
    rcases h2 : tagP ['"'] i with _ | i1
    · simp only [h2] at h
      exact absurd h (by simp)
    · simp only [h2] at h
      rcases h3 : escapedSD i1 with _ | ⟨inner, i2⟩
      · simp only [h3] at h
        exact absurd h (by simp)
      · simp only [h3] at h
        rcases h4 : tagP ['"'] i2 with _ | i3
        · simp only [h4] at h
          exact absurd h (by simp)
        · simp only [h4, Option.some.injEq, Prod.mk.injEq] at h
          obtain ⟨hr, hv⟩ := h
          obtain ⟨w, hw1, hw2, hw3, _⟩ := escapedSDGo_sound [] i1 inner i2 h3
          simp only [List.reverse_nil, List.nil_append] at hw2
          have hi : i = '"' :: i1 := by simpa using tagP_eq_some h2
          have hi2 : i2 = '"' :: i3 := by simpa using tagP_eq_some h4
          refine ⟨by rw [← hv, hw2]; exact hw3, ?_⟩
          rw [← hv, hw2, ← hr, hi, hw1, hi2]
  · simp only [h1, Option.some.injEq, Prod.mk.injEq] at h
    obtain ⟨hr, hv⟩ := h
    have hi : i = '"' :: '"' :: rest := by simpa using tagP_eq_some h1
    refine ⟨by rw [← hv]; rfl, ?_⟩
    rw [← hv, ← hr, hi]
    simp

theorem param_value_render {v : Str} (s : Str) (hv : EscOkB v = true) :
    param_value ('"' :: (v ++ '"' :: s)) = some (s, v) := by
  cases v with
  | nil => rfl
  | cons c cs =>
    have hcq : ¬c = '"' := EscOkB_head_ne_quote hv
    have h1 : tagP ['"', '"'] ('"' :: ((c :: cs) ++ '"' :: s)) = none := by
      simp [tagP, hcq]
    have h2 : tagP ['"'] ('"' :: ((c :: cs) ++ '"' :: s)) = some ((c :: cs) ++ '"' :: s) := by
      simp [tagP]
    have h3 : escapedSD ((c :: cs) ++ '"' :: s) = some (c :: cs, '"' :: s) := by
      unfold escapedSD
      rw [escapedSDGo_render (c :: cs) hv [] s (by simp)]
      simp
    unfold param_value
    simp only [h1, h2, h3]
    simp [tagP]

theorem param_sound {i r : Str} {p : Str × Str} (h : param i = some (r, p)) :
    p.1 ≠ [] ∧ (∀ c ∈ p.1, goodNameChar c = true) ∧ EscOkB p.2 = true ∧
    i.head? = p.1.head? ∧ r.length < i.length := by
  obtain ⟨n, v⟩ := p
  unfold param at h
  rcases h1 : take_till1 (fun c => c = ']' || c = '=') i with _ | ⟨name, i1⟩
  · simp only [h1] at h
    exact absurd h (by simp)
  · simp only [h1] at h
    rcases h2 : tagP ['='] i1 with _ | i2
    · simp only [h2] at h
      exact absurd h (by simp)
    · simp only [h2] at h
      rcases h3 : param_value (space0 i2) with _ | ⟨i3, value⟩
      · simp only [h3] at h
        exact absurd h (by simp)
      · simp only [h3, Option.some.injEq, Prod.mk.injEq] at h
        obtain ⟨hi3, hname, hval⟩ := h
        obtain ⟨hne, hsplit, hchars, _⟩ := take_till1_eq_some h1
        obtain ⟨hesc, hshape⟩ := param_value_sound h3
        have hi1 : i1 = '=' :: i2 := by simpa using tagP_eq_some h2
        have hlen2 : (space0 i2).length ≤ i2.length := space0_length i2
        have hlen3 : (space0 i2).length = v.length + 2 + i3.length := by
          rw [hval] at hshape
          rw [hshape]
          simp
          omega
        have hlen4 : i.length = name.length + i1.length := by
          rw [hsplit]
          simp
        have hlen5 : i1.length = i2.length + 1 := by rw [hi1]; simp
        have hnlen : 1 ≤ name.length := by
          cases name with
          | nil => exact absurd rfl hne
          | cons a as => simp
        refine ⟨by rw [← hname]; exact hne, ?_, by rw [← hval]; exact hesc, ?_, ?_⟩
        · intro c hc
          rw [← hname] at hc
          have := hchars c hc
          simp only [goodNameChar]
          simp only [Bool.or_eq_false_iff] at this ⊢
          simp [this.1, this.2]
        · rw [← hname, hsplit]
          cases name with
          | nil => exact absurd rfl hne
          | cons a as => simp
        · rw [← hi3]
          omega

theorem param_render {n v : Str} (s : Str) (hn : n ≠ [])
    (hname : ∀ c ∈ n, goodNameChar c = true) (hv : EscOkB v = true) :
    param (n ++ '=' :: '"' :: (v ++ '"' :: s)) = some (s, (n, v)) := by
  have h1 : take_till1 (fun c => c = ']' || c = '=') (n ++ '=' :: '"' :: (v ++ '"' :: s)) =
      some (n, '=' :: '"' :: (v ++ '"' :: s)) := by
    refine take_till1_split _ hn ?_ ?_
    · intro c hc
      have := hname c hc
      simp only [goodNameChar, Bool.not_eq_true', Bool.or_eq_false_iff] at this ⊢
      exact this
    · intro c cs hc
      cases hc
      decide
  have h2 : tagP ['='] ('=' :: '"' :: (v ++ '"' :: s)) = some ('"' :: (v ++ '"' :: s)) := by
    simp [tagP]
  have h3 : space0 ('"' :: (v ++ '"' :: s)) = '"' :: (v ++ '"' :: s) := by
    have := space0_append (a := []) (b := '"' :: (v ++ '"' :: s)) (by simp) ?_
    · simpa using this
    · intro c cs hc
      cases hc
      decide
  unfold param
  simp only [h1, h2, h3, param_value_render s hv]

theorem paramsLoop_sound : ∀ fuel i acc,
    (∀ p ∈ acc, GoodPair p) →
    (∀ p ∈ (paramsLoop fuel i acc).2, GoodPair p) ∧
    (∃ tail, (paramsLoop fuel i acc).2 = acc.reverse ++ tail) ∧
    (paramsLoop fuel i acc).1.length ≤ i.length := by
  intro fuel
  induction fuel with
  | zero =>
    intro i acc hacc
    refine ⟨?_, ⟨[], by simp [paramsLoop]⟩, by simp [paramsLoop]⟩
    intro p hp
    simp only [paramsLoop, List.mem_reverse] at hp
    exact hacc p hp
  | succ n ih =>
    intro i acc hacc
    rcases h1 : tagP [' '] i with _ | i1
    · simp only [paramsLoop, h1]
      refine ⟨?_, ⟨[], by simp⟩, by simp⟩
      intro p hp
      simp only [List.mem_reverse] at hp
      exact hacc p hp
    · rcases h2 : param i1 with _ | ⟨i2, p⟩
      · simp only [paramsLoop, h1, h2]
        refine ⟨?_, ⟨[], by simp⟩, by simp⟩
        intro q hq
        simp only [List.mem_reverse] at hq
        exact hacc q hq
      · simp only [paramsLoop, h1, h2]
        have hp := param_sound h2
        have hgood : ∀ q ∈ p :: acc, GoodPair q := by
          intro q hq
          rcases List.mem_cons.mp hq with h | h
          · subst h
            exact ⟨hp.1, hp.2.1, hp.2.2.1⟩
          · exact hacc q h
        obtain ⟨g1, ⟨tail, g2⟩, g3⟩ := ih i2 (p :: acc) hgood
        have hi : i = ' ' :: i1 := by simpa using tagP_eq_some h1
        refine ⟨g1, ⟨p :: tail, by rw [g2]; simp⟩, ?_⟩
        have hl : i2.length < i1.length := hp.2.2.2.2
        have : i.length = i1.length + 1 := by rw [hi]; simp
        omega

theorem sepList0Params_sound (i : Str) :
    (∀ p ∈ (sepList0Params i).2, GoodPair p) ∧
    (∀ q qs, (sepList0Params i).2 = q :: qs → i.head? = q.1.head?) ∧
    (sepList0Params i).1.length ≤ i.length := by
  unfold sepList0Params
  rcases h1 : param i with _ | ⟨r, p⟩
  · simp
  · simp only []
    have hp := param_sound h1
    have hgood : ∀ q ∈ [p], GoodPair q := by
      intro q hq
      simp only [List.mem_singleton] at hq
      subst hq
      exact ⟨hp.1, hp.2.1, hp.2.2.1⟩
    obtain ⟨g1, ⟨tail, g2⟩, g3⟩ := paramsLoop_sound r.length r [p] hgood
    refine ⟨g1, ?_, ?_⟩
    · intro q qs hq
      rw [g2] at hq
      simp only [List.reverse_singleton, List.singleton_append, List.cons.injEq] at hq
      rw [← hq.1]
      exact hp.2.2.2.1
    · have := hp.2.2.2.2
      omega

theorem structured_datum_strict_sound {input r : Str} {res : Option StructuredElement}
    (h : structured_datum_strict input = some (r, res)) :
    (∀ e, res = some e → GoodElem e) ∧ r.length < input.length := by
  unfold structured_datum_strict at h
  rcases h1 : tagP ['['] input with _ | i1
  · simp only [h1] at h
    exact absurd h (by simp)
  · simp only [h1] at h
    rcases h2 : take_till1 (fun c => rustWS c || c = ']' || c = '=') i1 with _ | ⟨idtk, i2⟩
    · simp only [h2] at h
      exact absurd h (by simp)
    · simp only [h2] at h
      rcases h3 : sepList0Params (space0 i2) with ⟨i3, ps⟩
      simp only [h3] at h
      rcases h4 : tagP [']'] i3 with _ | i4
      · simp only [h4] at h
        exact absurd h (by simp)
      · simp only [h4, Option.some.injEq, Prod.mk.injEq] at h
        obtain ⟨hr, hres⟩ := h
        obtain ⟨hid_ne, hid_split, hid_chars, _⟩ := take_till1_eq_some h2
        have hsep := sepList0Params_sound (space0 i2)
        rw [h3] at hsep
        obtain ⟨hps_good, hps_head, hps_len⟩ := hsep
        dsimp only at hps_good hps_head hps_len
        constructor
        · intro e he
          rw [← hres] at he
          cases he
          refine ⟨hid_ne, ?_, hps_good, ?_⟩
          · intro c hc
            have := hid_chars c hc
            simp only [goodIdChar]
            rw [this]
            rfl
          · cases hps : ps with
            | nil => exact trivial
            | cons q qs =>
              intro c cs hqc
              have hh := hps_head q qs hps
              rw [hqc] at hh
              have hsp := (spanP_eq isSp i2).2.2
              cases hsp0 : space0 i2 with
              | nil =>
                rw [hsp0] at hh
                exact absurd hh (by simp)
              | cons d ds =>
                rw [hsp0] at hh
                simp only [List.head?_cons, Option.some.injEq] at hh
                have hds : (spanP isSp i2).2 = d :: ds := hsp0
                have := hsp d ds hds
                rw [← hh]
                exact this
        · have l1 : input.length = i1.length + 1 := by
            rw [tagP_eq_some h1]
            simp
          have l2 : i1.length = idtk.length + i2.length := by
            rw [hid_split]
            simp
          have l3 : 1 ≤ idtk.length := by
            cases idtk with
            | nil => exact absurd rfl hid_ne
            | cons a as => simp
          have l4 : (space0 i2).length ≤ i2.length := space0_length i2
          have l5 : i3.length = i4.length + 1 := by
            rw [tagP_eq_some h4]
            simp
          rw [← hr]
          omega

/-! ### Re-parsing a rendered element -/

theorem paramsLoop_render : ∀ ps acc fuel, (∀ p ∈ ps, GoodPair p) →
    (renderParams ps).length ≤ fuel →
    paramsLoop fuel (renderParams ps ++ [']']) acc = ([']'], acc.reverse ++ ps) := by
  intro ps
  induction ps with
  | nil =>
    intro acc fuel _ _
    cases fuel with
    | zero => simp [paramsLoop, renderParams]
    | succ n =>
      have ht : tagP [' '] [']'] = none := by decide
      simp [paramsLoop, renderParams, ht]
  | cons p rest ih =>
    intro acc fuel hgood hfuel
    obtain ⟨n, v⟩ := p
    have hgp : GoodPair (n, v) := hgood (n, v) (by simp)
    cases fuel with
    | zero =>
      rw [renderParams] at hfuel
      simp at hfuel
    | succ m =>
      have hshape : renderParams ((n, v) :: rest) ++ [']'] =
          ' ' :: (n ++ '=' :: '"' :: (v ++ '"' :: (renderParams rest ++ [']']))) := by
        rw [renderParams]
        simp
      have ht : tagP [' ']
          (' ' :: (n ++ '=' :: '"' :: (v ++ '"' :: (renderParams rest ++ [']'])))) =
          some (n ++ '=' :: '"' :: (v ++ '"' :: (renderParams rest ++ [']']))) := by
        simp [tagP]
      have hpr := param_render (renderParams rest ++ [']']) hgp.1 hgp.2.1 hgp.2.2
      have hrest : ∀ q ∈ rest, GoodPair q := fun q hq => hgood q (by simp [hq])
      have hflen : (renderParams rest).length ≤ m := by
        rw [renderParams] at hfuel
        simp only [List.length_cons, List.length_append] at hfuel
        omega
      rw [hshape]
      simp only [paramsLoop, ht, hpr]
      rw [ih ((n, v) :: acc) m hrest hflen]
      simp

theorem structured_datum_strict_render {e : StructuredElement} (hg : GoodElem e) :
    structured_datum_strict (renderSD e) = some ([], some e) := by
  obtain ⟨id, ps⟩ := e
  obtain ⟨hid_ne, hid_chars, hps, hfirst⟩ := hg
  simp only at hid_ne hid_chars hps hfirst
  rcases ps with _ | ⟨⟨qn, qv⟩, qs⟩
  · have h1 : tagP ['['] ('[' :: (id ++ [']'])) = some (id ++ [']']) := by
      simp [tagP]
    have h2 : take_till1 (fun c => rustWS c || c = ']' || c = '=')
        (id ++ [']']) = some (id, [']']) := by
      refine take_till1_split _ hid_ne ?_ ?_
      · intro c hc
        have := hid_chars c hc
        simp only [goodIdChar, Bool.not_eq_true'] at this
        simpa using this
      · intro c cs hc
        cases hc
        decide
    have h3 : space0 ([']'] : Str) = [']'] := by decide
    have h4 : sepList0Params [']'] = ([']'], []) := by decide
    have hrend : renderSD ⟨id, []⟩ = '[' :: (id ++ [']']) := by
      simp [renderSD, renderParams]
    rw [hrend]
    unfold structured_datum_strict
    simp only [h1, h2, h3, h4]
    simp [tagP]
  · have hqgood : GoodPair (qn, qv) := hps (qn, qv) (by simp)
    have hqhead : ∀ c cs, qn = c :: cs → isSp c = false := hfirst
    have hrend : renderSD ⟨id, (qn, qv) :: qs⟩ =
        '[' :: (id ++ (' ' :: (qn ++ '=' :: '"' :: (qv ++ '"' :: (renderParams qs ++ [']']))))) := by
      simp [renderSD, renderParams]
    have h1 : tagP ['[']
        ('[' :: (id ++ (' ' :: (qn ++ '=' :: '"' :: (qv ++ '"' :: (renderParams qs ++ [']'])))))) =
        some (id ++ (' ' :: (qn ++ '=' :: '"' :: (qv ++ '"' :: (renderParams qs ++ [']']))))) := by
      simp [tagP]
    have h2 : take_till1 (fun c => rustWS c || c = ']' || c = '=')
        (id ++ (' ' :: (qn ++ '=' :: '"' :: (qv ++ '"' :: (renderParams qs ++ [']']))))) =
        some (id, ' ' :: (qn ++ '=' :: '"' :: (qv ++ '"' :: (renderParams qs ++ [']'])))) := by
      refine take_till1_split _ hid_ne ?_ ?_
      · intro c hc
        have := hid_chars c hc
        simp only [goodIdChar, Bool.not_eq_true'] at this
        simpa using this
      · intro c cs hc
        simp only [List.cons.injEq] at hc
        rw [← hc.1]
        decide
    have h3 : space0 (' ' :: (qn ++ '=' :: '"' :: (qv ++ '"' :: (renderParams qs ++ [']'])))) =
        qn ++ '=' :: '"' :: (qv ++ '"' :: (renderParams qs ++ [']'])) := by
      have hsp1 : ∀ c ∈ [' '], isSp c = true := by
        intro c hc
        simp only [List.mem_singleton] at hc
        rw [hc]
        decide
      have hsp2 : ∀ c cs, qn ++ '=' :: '"' :: (qv ++ '"' :: (renderParams qs ++ [']'])) =
          c :: cs → isSp c = false := by
        intro c cs hc
        cases hqn : qn with
        | nil =>
          rw [hqn] at hc
          simp only [List.nil_append, List.cons.injEq] at hc
          rw [← hc.1]
          decide
        | cons a as =>
          rw [hqn] at hc
          simp only [List.cons_append, List.cons.injEq] at hc
          rw [← hc.1]
          exact hqhead a as hqn
      have := space0_append hsp1 hsp2
      simpa using this
    have hpr := param_render (renderParams qs ++ [']']) hqgood.1 hqgood.2.1 hqgood.2.2
    dsimp only at hpr
    have hqs_good : ∀ p ∈ qs, GoodPair p := fun p hp => hps p (by simp [hp])
    have h4 : sepList0Params (qn ++ '=' :: '"' :: (qv ++ '"' :: (renderParams qs ++ [']']))) =
        ([']'], (qn, qv) :: qs) := by
      unfold sepList0Params
      simp only [hpr]
      rw [paramsLoop_render qs [(qn, qv)] (renderParams qs ++ [']']).length hqs_good
        (by simp)]
      simp
    rw [hrend]
    unfold structured_datum_strict
    simp only [h1, h2, h3, h4]
    simp [tagP]

theorem structured_datum_permissive_genuine {input r : Str} {e : StructuredElement}
    (h : structured_datum_permissive input = some (r, some e)) :
    structured_datum_strict input = some (r, some e) := by
  unfold structured_datum_permissive at h
  rcases h1 : structured_datum_strict input with _ | p
  · simp only [h1] at h
    rcases h2 : tagP ['['] input with _ | i1
    · simp only [h2] at h
      exact absurd h (by simp)
    · simp only [h2] at h
      rcases h3 : take_until_rb i1 with _ | ⟨tk, i2⟩
      · simp only [h3] at h
        exact absurd h (by simp)
      · simp only [h3] at h
        rcases h4 : tagP [']'] i2 with _ | i3
        · simp only [h4] at h
          exact absurd h (by simp)
        · simp only [h4, Option.some.injEq, Prod.mk.injEq] at h
          exact absurd h.2 (by simp)
  · simp only [h1] at h
    exact h

theorem structured_datum_permissive_render {e : StructuredElement} (hg : GoodElem e) :
    structured_datum_permissive (renderSD e) = some ([], some e) := by
  unfold structured_datum_permissive
  rw [structured_datum_strict_render hg]

/-- C1 counterexample: the strict single-element recognizer consumes the
whole input `[id a= ""]` (which uses the permitted optional space after
`=`) and yields a genuine element, but rendering that element via
`Display` produces `[id a=""]`, not the consumed text. -/
theorem c1_display_ne_consumed :
    structured_datum_strict ("[id a= \"\"]".toList) =
      some ([], some ⟨"id".toList, [("a".toList, "".toList)]⟩) ∧
    renderSD ⟨"id".toList, [("a".toList, "".toList)]⟩ ≠ "[id a= \"\"]".toList := by
  constructor
  · decide
  · decide

/-- C1 (amended): for every input from which the single-element
recognizer (strict or permissive mode) parses a genuine element, the
canonical `Display` rendering of that element re-parses, in both modes,
to exactly the same element with nothing left over; the rendering equals
the consumed input substring only when the input used none of the
permitted optional spaces (after `=`, or extra ones after the id), and
`c1_display_ne_consumed` shows an input with an optional space where
rendering differs from the consumed text. -/
theorem c1_render_roundtrip {input r : Str} {e : StructuredElement}
    (h : structured_datum_strict input = some (r, some e) ∨
      structured_datum_permissive input = some (r, some e)) :
    structured_datum_strict (renderSD e) = some ([], some e) ∧
    structured_datum_permissive (renderSD e) = some ([], some e) := by
  have hstrict : structured_datum_strict input = some (r, some e) := by
    rcases h with h | h
    · exact h
    · exact structured_datum_permissive_genuine h
  have hg : GoodElem e := (structured_datum_strict_sound hstrict).1 e rfl
  exact ⟨structured_datum_strict_render hg, structured_datum_permissive_render hg⟩

/-- Witness for `c1_render_roundtrip` at the concrete input `[a b= "c"]`
(an optional space after `=`). -/
theorem c1_render_roundtrip_witness :
    structured_datum_strict ("[a b= \"c\"]".toList) =
      some ([], some ⟨"a".toList, [("b".toList, "c".toList)]⟩) ∧
    structured_datum_strict (renderSD ⟨"a".toList, [("b".toList, "c".toList)]⟩) =
      some ([], some ⟨"a".toList, [("b".toList, "c".toList)]⟩) :=
  ⟨by decide,
    (@c1_render_roundtrip ("[a b= \"c\"]".toList) []
      ⟨"a".toList, [("b".toList, "c".toList)]⟩ (Or.inl (by decide))).1⟩

/-! ### The configured single-datum parse and the multi-element driver -/

theorem take_until_rb_eq_some {i tk rest : Str} (h : take_until_rb i = some (tk, rest)) :
    i = tk ++ rest := by
  have hs := spanP_eq (fun c => !(c = ']')) i
  unfold take_until_rb at h
  rcases hspan : spanP (fun c => !(c = ']')) i with ⟨a, b⟩
  rw [hspan] at h hs
  cases b with
  | nil => simp at h
  | cons x xs =>
    simp only [Option.some.injEq, Prod.mk.injEq] at h
    rw [← h.1, ← h.2]
    exact hs.1

theorem take_until_rb_split {body post : Str} (h : ']' ∉ body) :
    take_until_rb (body ++ ']' :: post) = some (body, ']' :: post) := by
  have hsp : spanP (fun c => !(c = ']')) (body ++ ']' :: post) = (body, ']' :: post) := by
    refine spanP_split _ ?_ ?_
    · intro c hc
      have : ¬c = ']' := fun he => h (he ▸ hc)
      simp [this]
    · intro c cs hc
      simp only [List.cons.injEq] at hc
      rw [← hc.1]
      simp
  unfold take_until_rb
  rw [hsp]

theorem structured_datum_permissive_sound {input r : Str} {res : Option StructuredElement}
    (h : structured_datum_permissive input = some (r, res)) :
    (∀ e, res = some e → GoodElem e) ∧ r.length < input.length := by
  unfold structured_datum_permissive at h
  rcases h1 : structured_datum_strict input with _ | p
  · simp only [h1] at h
    rcases h2 : tagP ['['] input with _ | i1
    · simp only [h2] at h
      exact absurd h (by simp)
    · simp only [h2] at h
      rcases h3 : take_until_rb i1 with _ | ⟨tk, i2⟩
      · simp only [h3] at h
        exact absurd h (by simp)
      · simp only [h3] at h
        rcases h4 : tagP [']'] i2 with _ | i3
        · simp only [h4] at h
          exact absurd h (by simp)
        · simp only [h4, Option.some.injEq, Prod.mk.injEq] at h
          refine ⟨fun e he => absurd (h.2 ▸ he) (by simp), ?_⟩
          have l1 : input.length = i1.length + 1 := by
            rw [tagP_eq_some h2]
            simp
          have l2 : i1.length = tk.length + i2.length := by
            rw [take_until_rb_eq_some h3]
            simp
          have l3 : i2.length = i3.length + 1 := by
            rw [tagP_eq_some h4]
            simp
          rw [← h.1]
          omega
  · simp only [h1] at h
    rw [h] at h1
    exact structured_datum_strict_sound h1

theorem runGrammar_sound {af : Bool} {input r : Str} {res : Option StructuredElement}
    (h : runGrammar af input = some (r, res)) :
    (∀ e, res = some e → GoodElem e) ∧ r.length < input.length := by
  unfold runGrammar at h
  cases af with
  | false => exact structured_datum_strict_sound (by simpa using h)
  | true => exact structured_datum_permissive_sound (by simpa using h)

theorem datumParse_sound {af ae : Bool} {input r : Str} {res : Option StructuredElement}
    (h : datumParse af ae input = some (r, res)) :
    (∀ e, res = some e → GoodElem e) ∧ r.length < input.length := by
  unfold datumParse at h
  rcases h1 : runGrammar af input with _ | ⟨rem, result⟩
  · simp only [h1] at h
    exact absurd h (by simp)
  · simp only [h1] at h
    split at h
    · exact absurd h (by simp)
    · simp only [Option.some.injEq, Prod.mk.injEq] at h
      rw [← h.1, ← h.2]
      exact runGrammar_sound h1

/-- Justification that fuel equal to the remaining input length suffices
for `manyLoop`: every successful `datumParse` strictly shrinks the
input. -/
theorem datumParse_consumes {af ae : Bool} {input r : Str} {res : Option StructuredElement}
    (h : datumParse af ae input = some (r, res)) : r.length < input.length :=
  (datumParse_sound h).2

/-- Justification that fuel equal to the remaining input length suffices
for `paramsLoop`: every successful `param` strictly shrinks the input. -/
theorem param_consumes {i r : Str} {p : Str × Str} (h : param i = some (r, p)) :
    r.length < i.length :=
  (param_sound h).2.2.2.2

theorem manyLoop_sound : ∀ fuel af ae i acc,
    (∀ res ∈ acc, ∀ e, res = some e → GoodElem e) →
    ∀ res ∈ (manyLoop af ae fuel i acc).2, ∀ e, res = some e → GoodElem e := by
  intro fuel
  induction fuel with
  | zero =>
    intro af ae i acc hacc res hres
    simp only [manyLoop, List.mem_reverse] at hres
    exact hacc res hres
  | succ n ih =>
    intro af ae i acc hacc res hres
    rcases h1 : datumParse af ae i with _ | ⟨r, res0⟩
    · simp only [manyLoop, h1, List.mem_reverse] at hres
      exact hacc res hres
    · simp only [manyLoop, h1] at hres
      refine ih af ae r (res0 :: acc) ?_ res hres
      intro q hq
      rcases List.mem_cons.mp hq with hh | hh
      · subst hh
        exact (datumParse_sound h1).1
      · exact hacc q hh

theorem parse_structured_data_sound {af ae : Bool} {input r : Str}
    {elems : List StructuredElement}
    (h : parse_structured_data af ae input = some (r, elems)) :
    ∀ e ∈ elems, GoodElem e := by
  unfold parse_structured_data at h
  rcases h1 : tagP ['-'] input with _ | rest
  · simp only [h1] at h
    rcases h2 : many1Datum af ae input with _ | ⟨r0, items⟩
    · simp only [h2] at h
      exact absurd h (by simp)
    · simp only [h2, Option.some.injEq, Prod.mk.injEq] at h
      intro e he
      rw [← h.2] at he
      obtain ⟨a, ha, hae⟩ := List.mem_filterMap.mp he
      simp only [id] at hae
      unfold many1Datum at h2
      rcases h3 : datumParse af ae input with _ | ⟨r1, res1⟩
      · simp only [h3] at h2
        exact absurd h2 (by simp)
      · simp only [h3, Option.some.injEq] at h2
        have hitems : items = (manyLoop af ae r1.length r1 [res1]).2 := by
          rw [h2]
        rw [hitems] at ha
        refine manyLoop_sound r1.length af ae r1 [res1] ?_ a ha e hae
        intro q hq
        simp only [List.mem_singleton] at hq
        subst hq
        exact (datumParse_sound h3).1
  · simp only [h1, Option.some.injEq, Prod.mk.injEq] at h
    intro e he
    rw [← h.2] at he
    simp at he

/-- C4: under `allow_empty = false`, every syntactically successful parse
of a genuine element with zero parameters is converted into a structural
parse failure (regardless of which grammar `allow_failure` selected);
concretely, the strict profile fails on `[abc] message` while the lenient
profile accepts `[WAN_LOCAL-default-D]` as one element with zero
parameters. -/
theorem c4_empty_policy :
    (∀ (af : Bool) (input r : Str) (e : StructuredElement),
      runGrammar af input = some (r, some e) → e.params = [] →
      datumParse af false input = none) ∧
    structured_data_optional ("[abc] message".toList) = none ∧
    structured_data ("[WAN_LOCAL-default-D]".toList) =
      some ([], [⟨"WAN_LOCAL-default-D".toList, []⟩]) := by
  refine ⟨?_, by decide, by decide⟩
  intro af input r e h hempty
  unfold datumParse
  rw [h]
  simp [hempty]

/-- Witness for `c4_empty_policy`: the permissive grammar parses `[abc]`
into a genuine element with no parameters, and the empty-element policy
turns that success into a failure. -/
theorem c4_empty_policy_witness :
    runGrammar true ("[abc]".toList) = some ([], some ⟨"abc".toList, []⟩) ∧
    datumParse true false ("[abc]".toList) = none :=
  ⟨by decide,
    c4_empty_policy.1 true ("[abc]".toList) [] ⟨"abc".toList, []⟩ (by decide) rfl⟩

/-- C5: a bracket group that fails the strict element grammar but closes
with `]` is consumed by the permissive fallback as a recognized-but-empty
outcome, and the lenient driver silently drops it from the result list:
`[abc][id aa=]` yields exactly the element `abc` with no parameters and
no remaining input. -/
theorem c5_permissive_fallback :
    (∀ body post : Str, ']' ∉ body →
      structured_datum_strict ('[' :: (body ++ ']' :: post)) = none →
      structured_datum_permissive ('[' :: (body ++ ']' :: post)) = some (post, none)) ∧
    structured_data ("[abc][id aa=]".toList) = some ([], [⟨"abc".toList, []⟩]) := by
  refine ⟨?_, by decide⟩
  intro body post hmem hstrict
  unfold structured_datum_permissive
  have h1 : tagP ['['] ('[' :: (body ++ ']' :: post)) = some (body ++ ']' :: post) := by
    simp [tagP]
  simp only [hstrict, h1, take_until_rb_split hmem]
  simp [tagP]

/-- Witness for `c5_permissive_fallback`: the malformed bracket
`[id aa=]` fails the strict grammar and is consumed whole by the
fallback, producing no element. -/
theorem c5_permissive_fallback_witness :
    ']' ∉ ("id aa=".toList) ∧
    structured_datum_strict ('[' :: ("id aa=".toList ++ [']'])) = none ∧
    structured_datum_permissive ('[' :: ("id aa=".toList ++ [']'])) = some ([], none) :=
  ⟨by decide, by decide,
    c5_permissive_fallback.1 ("id aa=".toList) [] (by decide) (by decide)⟩

/-- C7: both top-level profiles treat the NILVALUE `-` identically,
returning an empty element list and empty remaining input. -/
theorem c7_nilvalue :
    structured_data ("-".toList) = some ([], []) ∧
    structured_data_optional ("-".toList) = some ([], []) := by
  constructor
  · decide
  · decide

/-- C8: every element in every successful result list of the multi-element
driver (any flag combination, hence both public profiles) has a non-empty
id containing no whitespace character, no `]`, and no `=`. -/
theorem c8_id_invariant {af ae : Bool} {input r : Str} {elems : List StructuredElement}
    (h : parse_structured_data af ae input = some (r, elems)) :
    ∀ e ∈ elems, e.id ≠ [] ∧ ∀ c ∈ e.id, rustWS c = false ∧ c ≠ ']' ∧ c ≠ '=' := by
  intro e he
  obtain ⟨hne, hchars, _, _⟩ := parse_structured_data_sound h e he
  refine ⟨hne, ?_⟩
  intro c hc
  have := hchars c hc
  simp only [goodIdChar, Bool.not_eq_true', Bool.or_eq_false_iff] at this
  obtain ⟨⟨w1, w2⟩, w3⟩ := this
  refine ⟨w1, by simpa using w2, by simpa using w3⟩

/-- Witness for `c8_id_invariant` at the lenient profile on `[abc]`. -/
theorem c8_id_invariant_witness :
    parse_structured_data true true ("[abc]".toList) =
      some ([], [⟨"abc".toList, []⟩]) ∧
    ((⟨"abc".toList, []⟩ : StructuredElement).id ≠ [] ∧
      ∀ c ∈ (⟨"abc".toList, []⟩ : StructuredElement).id,
        rustWS c = false ∧ c ≠ ']' ∧ c ≠ '=') :=
  ⟨by decide,
    @c8_id_invariant true true ("[abc]".toList) [] [⟨"abc".toList, []⟩]
      (by decide) ⟨"abc".toList, []⟩ (by simp)⟩

/-! ### The lazy decoding state machine -/

theorem escAtEndGo_append : ∀ (u : Str) (s : Bool) (w : Str),
    escAtEndGo s (u ++ w) = escAtEndGo (escAtEndGo s u) w := by
  intro u
  induction u with
  | nil => intro s w; rfl
  | cons c u' ih =>
    intro s w
    simp only [List.cons_append, escAtEndGo]
    exact ih _ w

theorem decodeValueGo_append : ∀ (u : Str) (s : Bool) (w : Str),
    decodeValueGo s (u ++ w) = decodeValueGo s u ++ decodeValueGo (escAtEndGo s u) w := by
  intro u
  induction u with
  | nil => intro s w; simp [decodeValueGo, escAtEndGo]
  | cons c u' ih =>
    intro s w
    cases s with
    | false =>
      by_cases hc : c = '\\'
      · subst hc
        simp only [List.cons_append, decodeValueGo, escAtEndGo]
        simpa using ih true w
      · simp only [List.cons_append, decodeValueGo, escAtEndGo, hc]
        simp only [decide_eq_true_eq] at *
        simp [hc, ih false w]
    | true =>
      by_cases hn : c = 'n'
      · subst hn
        simp only [List.cons_append, decodeValueGo, escAtEndGo]
        simp [ih false w]
      · by_cases hq : c = '"'
        · subst hq
          simp only [List.cons_append, decodeValueGo, escAtEndGo]
          simp [ih false w]
        · by_cases hb : c = ']'
          · subst hb
            simp only [List.cons_append, decodeValueGo, escAtEndGo]
            simp [ih false w]
          · by_cases hs : c = '\\'
            · subst hs
              simp only [List.cons_append, decodeValueGo, escAtEndGo]
              simp [ih false w]
            · simp only [List.cons_append, decodeValueGo, escAtEndGo]
              simp [hn, hq, hb, hs, ih false w]

/-- C10: when a raw parameter value ends with a backslash that leaves the
decoder's `escaped` flag set at end of input, the decoding loop emits
nothing for it: the last character is that `\`, and the decoded value is
exactly the decoded value of the text without it (no error, no literal
backslash appended). -/
theorem c10_trailing_backslash (v : Str) (hv : escAtEndGo false v = true) :
    v.getLast? = some '\\' ∧ decodeValue v = decodeValue v.dropLast := by
  have hne : v ≠ [] := by
    intro he
    rw [he] at hv
    simp [escAtEndGo] at hv
  rcases List.eq_nil_or_concat v with rfl | ⟨u, c, rfl⟩
  · exact absurd rfl hne
  · rw [List.concat_eq_append] at hv hne ⊢
    rw [escAtEndGo_append] at hv
    simp only [escAtEndGo] at hv
    have hcb : c = '\\' ∧ escAtEndGo false u = false := by
      by_cases hc : c = '\\'
      · subst hc
        simp only [decide_eq_true_eq] at hv
        refine ⟨rfl, ?_⟩
        cases hu : escAtEndGo false u with
        | false => rfl
        | true => rw [hu] at hv; simp at hv
      · simp [hc] at hv
    obtain ⟨hc, hu⟩ := hcb
    subst hc
    refine ⟨by simp, ?_⟩
    have hd : (u ++ ['\\']).dropLast = u := by simp
    rw [hd]
    unfold decodeValue
    rw [decodeValueGo_append, hu]
    simp [decodeValueGo]

/-- Witness for `c10_trailing_backslash` at the raw value `ab\`. -/
theorem c10_trailing_backslash_witness :
    escAtEndGo false ("ab\\".toList) = true ∧
    (("ab\\".toList : Str).getLast? = some '\\' ∧
      decodeValue ("ab\\".toList) = decodeValue ("ab\\".toList : Str).dropLast) :=
  ⟨by decide, c10_trailing_backslash ("ab\\".toList) (by decide)⟩

/-- C2: the lazy decoding iterator transforms each stored raw value
character by character exactly per the escape state machine (unescaped
`\` enters escaped state emitting nothing; escaped `n` emits a newline;
escaped `"`, `]`, `\` emit that character; escaped anything-else emits a
literal backslash then the character; anything while unescaped is emitted
literally), and on the element
`[id aa="hullo \"there\"" bb="let's \\\\do this\\\\" cc="hello [bye\]"
dd="hello\nbye" ee="not \esc\aped"]` the decoded values are
`hullo "there"`, `let's \\do this\\`, `hello [bye]`, `hello`-newline-`bye`
and `not \esc\aped`. -/
theorem c2_decode_state_machine :
    (∀ rest : Str, decodeValueGo false ('\\' :: rest) = decodeValueGo true rest) ∧
    (∀ rest : Str, decodeValueGo true ('n' :: rest) = '\n' :: decodeValueGo false rest) ∧
    (∀ (c : Char) (rest : Str), c = '"' ∨ c = ']' ∨ c = '\\' →
      decodeValueGo true (c :: rest) = c :: decodeValueGo false rest) ∧
    (∀ (c : Char) (rest : Str), ¬c = 'n' → ¬c = '"' → ¬c = ']' → ¬c = '\\' →
      decodeValueGo true (c :: rest) = '\\' :: c :: decodeValueGo false rest) ∧
    (∀ (c : Char) (rest : Str), ¬c = '\\' →
      decodeValueGo false (c :: rest) = c :: decodeValueGo false rest) ∧
    structured_data (("[id aa=\"hullo \\\"there\\\"\" bb=\"let" ++
        String.singleton (Char.ofNat 39) ++
        "s \\\\\\\\do this\\\\\\\\\" cc=\"hello [bye\\]\" dd=\"hello\\nbye\" ee=\"not \\esc\\aped\"]").toList) =
      some ([], [⟨"id".toList,
        [("aa".toList, "hullo \\\"there\\\"".toList),
         ("bb".toList, ("let" ++ String.singleton (Char.ofNat 39) ++
           "s \\\\\\\\do this\\\\\\\\").toList),
         ("cc".toList, "hello [bye\\]".toList),
         ("dd".toList, "hello\\nbye".toList),
         ("ee".toList, "not \\esc\\aped".toList)]⟩]) ∧
    decodedParams ⟨"id".toList,
        [("aa".toList, "hullo \\\"there\\\"".toList),
         ("bb".toList, ("let" ++ String.singleton (Char.ofNat 39) ++
           "s \\\\\\\\do this\\\\\\\\").toList),
         ("cc".toList, "hello [bye\\]".toList),
         ("dd".toList, "hello\\nbye".toList),
         ("ee".toList, "not \\esc\\aped".toList)]⟩ =
      [("aa".toList, "hullo \"there\"".toList),
       ("bb".toList, ("let" ++ String.singleton (Char.ofNat 39) ++
         "s \\\\do this\\\\").toList),
       ("cc".toList, "hello [bye]".toList),
       ("dd".toList, "hello\nbye".toList),
       ("ee".toList, "not \\esc\\aped".toList)] := by
  refine ⟨?_, ?_, ?_, ?_, ?_, by decide, by decide⟩
  · intro rest
    simp [decodeValueGo]
  · intro rest
    simp [decodeValueGo]
  · intro c rest h
    rcases h with h | h | h
    all_goals subst h
    all_goals simp [decodeValueGo]
  · intro c rest h1 h2 h3 h4
    simp [decodeValueGo, h1, h2, h3, h4]
  · intro c rest h
    simp [decodeValueGo, h]

/-- Witness for `c2_decode_state_machine`, instantiating each
transition rule at a concrete character and the escaped-other rule at
`e`. -/
theorem c2_decode_state_machine_witness :
    decodeValueGo false ('\\' :: "x".toList) = decodeValueGo true ("x".toList) ∧
    decodeValueGo true ('n' :: []) = '\n' :: decodeValueGo false [] ∧
    decodeValueGo true (']' :: []) = ']' :: decodeValueGo false [] ∧
    decodeValueGo true ('e' :: []) = '\\' :: 'e' :: decodeValueGo false [] ∧
    decodeValueGo false ('y' :: []) = 'y' :: decodeValueGo false [] :=
  ⟨c2_decode_state_machine.1 ("x".toList),
   c2_decode_state_machine.2.1 [],
   c2_decode_state_machine.2.2.1 ']' [] (Or.inr (Or.inl rfl)),
   c2_decode_state_machine.2.2.2.1 'e' [] (by decide) (by decide) (by decide) (by decide),
   c2_decode_state_machine.2.2.2.2.1 'y' [] (by decide)⟩

/-! ### The order used by `Vec::sort` in the equality comparison -/

theorem strLeB_refl : ∀ a : Str, strLeB a a = true := by
  intro a
  induction a with
  | nil => rfl
  | cons c cs ih => simp [strLeB, lt_irrefl, ih]

theorem strLeB_total : ∀ a b : Str, strLeB a b = true ∨ strLeB b a = true := by
  intro a
  induction a with
  | nil => intro b; exact Or.inl rfl
  | cons c cs ih =>
    intro b
    cases b with
    | nil => exact Or.inr rfl
    | cons d ds =>
      rcases lt_trichotomy c d with h | h | h
      · left
        simp [strLeB, h]
      · subst h
        rcases ih ds with h2 | h2
        · left
          simp [strLeB, lt_irrefl, h2]
        · right
          simp [strLeB, lt_irrefl, h2]
      · right
        simp [strLeB, h]

theorem strLeB_antisymm : ∀ a b : Str, strLeB a b = true → strLeB b a = true → a = b := by
  intro a
  induction a with
  | nil =>
    intro b _ hba
    cases b with
    | nil => rfl
    | cons d ds => simp [strLeB] at hba
  | cons c cs ih =>
    intro b hab hba
    cases b with
    | nil => simp [strLeB] at hab
    | cons d ds =>
      by_cases h1 : c < d
      · simp [strLeB, h1, asymm h1, lt_irrefl] at hba
      · by_cases h2 : d < c
        · simp [strLeB, h1, h2] at hab
        · have hcd : c = d := le_antisymm (not_lt.mp h2) (not_lt.mp h1)
          subst hcd
          simp only [strLeB, if_neg h1, if_neg h2] at hab hba
          rw [ih ds hab hba]

theorem strLeB_trans : ∀ a b c : Str, strLeB a b = true → strLeB b c = true →
    strLeB a c = true := by
  intro a
  induction a with
  | nil => intro b c _ _; rfl
  | cons x xs ih =>
    intro b c hab hbc
    cases b with
    | nil => simp [strLeB] at hab
    | cons y ys =>
      cases c with
      | nil => simp [strLeB] at hbc
      | cons z zs =>
        by_cases hxy : x < y
        · by_cases hyz : y < z
          · simp [strLeB, lt_trans hxy hyz]
          · by_cases hzy : z < y
            · simp [strLeB, hyz, hzy] at hbc
            · have : y = z := le_antisymm (not_lt.mp hzy) (not_lt.mp hyz)
              subst this
              simp [strLeB, hxy]
        · by_cases hyx : y < x
          · simp [strLeB, hxy, hyx] at hab
          · have : x = y := le_antisymm (not_lt.mp hyx) (not_lt.mp hxy)
            subst this
            simp only [strLeB, if_neg hxy, if_neg hyx] at hab
            by_cases hyz : x < z
            · simp [strLeB, hyz]
            · by_cases hzy : z < x
              · simp [strLeB, hyz, hzy] at hbc
              · have : x = z := le_antisymm (not_lt.mp hzy) (not_lt.mp hyz)
                subst this
                simp only [strLeB, if_neg hyz, if_neg hzy] at hbc ⊢
                exact ih ys zs hab hbc

instance : IsTotal (Str × Str) pairLe := by
  constructor
  intro p q
  by_cases h1 : strLeB p.1 q.1 = true
  · by_cases h2 : strLeB q.1 p.1 = true
    · rcases strLeB_total p.2 q.2 with h3 | h3
      · left
        unfold pairLe pairLeB
        simp [h1, h2, h3]
      · right
        unfold pairLe pairLeB
        simp [h1, h2, h3]
    · left
      unfold pairLe pairLeB
      simp [h1, h2]
  · have h2 : strLeB q.1 p.1 = true := (strLeB_total p.1 q.1).resolve_left h1
    right
    unfold pairLe pairLeB
    simp [h1, h2]

instance : IsTrans (Str × Str) pairLe := by
  constructor
  intro p q r hpq hqr
  unfold pairLe pairLeB at hpq hqr ⊢
  by_cases h1 : strLeB p.1 q.1 = true
  · by_cases h3 : strLeB q.1 r.1 = true
    · have h5 : strLeB p.1 r.1 = true := strLeB_trans _ _ _ h1 h3
      by_cases h2 : strLeB q.1 p.1 = true
      · by_cases h4 : strLeB r.1 q.1 = true
        · simp only [h1, h2, h3, h4, if_true] at hpq hqr
          have h6 : strLeB r.1 p.1 = true := strLeB_trans _ _ _ h4 h2
          simp [h5, h6, strLeB_trans _ _ _ hpq hqr]
        · have h6 : ¬strLeB r.1 p.1 = true := by
            intro hc
            exact h4 (strLeB_trans _ _ _ hc h1)
          simp [h5, h6]
      · have h6 : ¬strLeB r.1 p.1 = true := by
          intro hc
          exact h2 (strLeB_trans _ _ _ h3 hc)
        simp [h5, h6]
    · simp [h3] at hqr
  · simp [h1] at hpq

instance : IsAntisymm (Str × Str) pairLe := by
  constructor
  intro p q hpq hqp
  unfold pairLe pairLeB at hpq hqp
  by_cases h1 : strLeB p.1 q.1 = true
  · by_cases h2 : strLeB q.1 p.1 = true
    · simp only [h1, h2, if_true] at hpq hqp
      exact Prod.ext (strLeB_antisymm _ _ h1 h2) (strLeB_antisymm _ _ hpq hqp)
    · simp [h2, h1] at hqp
  · simp [h1] at hpq

theorem zip_self_all_eq : ∀ l : List (Str × Str),
    ((l.zip l).all fun pq => pq.1.1 == pq.2.1 && pq.1.2 == pq.2.2) = true := by
  intro l
  induction l with
  | nil => rfl
  | cons p rest ih =>
    simp only [List.zip_cons_cons, List.all_cons, ih, Bool.and_true]
    simp

theorem zip_take_all_eq : ∀ (l : List (Str × Str)) (k : Nat),
    ((l.zip (l.take k)).all fun pq => pq.1.1 == pq.2.1 && pq.1.2 == pq.2.2) = true := by
  intro l
  induction l with
  | nil => intro k; rfl
  | cons p rest ih =>
    intro k
    cases k with
    | zero => rfl
    | succ m =>
      simp only [List.take_succ_cons, List.zip_cons_cons, List.all_cons, ih m, Bool.and_true]
      simp

theorem take_zip_all_eq : ∀ (l : List (Str × Str)) (k : Nat),
    (((l.take k).zip l).all fun pq => pq.1.1 == pq.2.1 && pq.1.2 == pq.2.2) = true := by
  intro l
  induction l with
  | nil => intro k; simp
  | cons p rest ih =>
    intro k
    cases k with
    | zero => rfl
    | succ m =>
      simp only [List.take_succ_cons, List.zip_cons_cons, List.all_cons, ih m, Bool.and_true]
      simp

/-- C6: element equality is insensitive to parameter order — identical id
with permuted parameter pairs compare equal — and elements with different
ids never compare equal. -/
theorem c6_eq_order_insensitive :
    (∀ (id : Str) (p1 p2 : List (Str × Str)), p1.Perm p2 →
      elemEq ⟨id, p1⟩ ⟨id, p2⟩ = true) ∧
    (∀ e1 e2 : StructuredElement, e1.id ≠ e2.id → elemEq e1 e2 = false) := by
  constructor
  · intro id p1 p2 hperm
    have hsort : sortParams p1 = sortParams p2 :=
      @List.eq_of_perm_of_sorted _ pairLe _ _ _
        (((List.perm_insertionSort pairLe p1).trans hperm).trans
          (List.perm_insertionSort pairLe p2).symm)
        (List.sorted_insertionSort pairLe p1)
        (List.sorted_insertionSort pairLe p2)
    unfold elemEq
    simp only [if_pos rfl]
    rw [hsort]
    exact zip_self_all_eq (sortParams p2)
  · intro e1 e2 hne
    unfold elemEq
    simp [hne]

/-- Witness for `c6_eq_order_insensitive`: swapped parameters compare
equal, and differing ids compare unequal. -/
theorem c6_eq_order_insensitive_witness :
    elemEq ⟨"a".toList, [("k".toList, "1".toList), ("m".toList, "2".toList)]⟩
      ⟨"a".toList, [("m".toList, "2".toList), ("k".toList, "1".toList)]⟩ = true ∧
    elemEq ⟨"a".toList, []⟩ ⟨"b".toList, []⟩ = false :=
  ⟨c6_eq_order_insensitive.1 ("a".toList)
      [("k".toList, "1".toList), ("m".toList, "2".toList)]
      [("m".toList, "2".toList), ("k".toList, "1".toList)] (by decide),
   c6_eq_order_insensitive.2 ⟨"a".toList, []⟩ ⟨"b".toList, []⟩ (by decide)⟩

/-- C3: the equality comparison zips the two sorted parameter lists only
up to the shorter length, so every element with a non-empty parameter
list compares equal (in both directions) to an element with the same id
whose parameter list is a strict prefix of its own sorted parameter
list. -/
theorem c3_subset_compares_equal (e : StructuredElement) (hne : e.params ≠ []) :
    ∃ e' : StructuredElement, e'.id = e.id ∧
      e'.params.length < e.params.length ∧
      e'.params = (sortParams e.params).take (e.params.length - 1) ∧
      elemEq e e' = true ∧ elemEq e' e = true := by
  obtain ⟨id, ps⟩ := e
  simp only at hne ⊢
  have hlen : 1 ≤ ps.length := by
    cases ps with
    | nil => exact absurd rfl hne
    | cons a as => simp
  have hslen : (sortParams ps).length = ps.length :=
    (List.perm_insertionSort pairLe ps).length_eq
  have hsorted : List.Sorted pairLe (sortParams ps) := List.sorted_insertionSort pairLe ps
  have htsorted : List.Sorted pairLe ((sortParams ps).take (ps.length - 1)) :=
    List.Pairwise.sublist (List.take_sublist _ _) hsorted
  have hfix : sortParams ((sortParams ps).take (ps.length - 1)) =
      (sortParams ps).take (ps.length - 1) :=
    @List.eq_of_perm_of_sorted _ pairLe _ _ _
      (List.perm_insertionSort pairLe ((sortParams ps).take (ps.length - 1)))
      (List.sorted_insertionSort pairLe ((sortParams ps).take (ps.length - 1))) htsorted
  refine ⟨⟨id, (sortParams ps).take (ps.length - 1)⟩, rfl, ?_, rfl, ?_, ?_⟩
  · simp only [List.length_take, hslen]
    omega
  · unfold elemEq
    simp only [if_pos rfl]
    rw [hfix]
    exact zip_take_all_eq (sortParams ps) (ps.length - 1)
  · unfold elemEq
    simp only [if_pos rfl]
    rw [hfix]
    exact take_zip_all_eq (sortParams ps) (ps.length - 1)

/-- Witness for `c3_subset_compares_equal` at a two-parameter element. -/
theorem c3_subset_compares_equal_witness :
    ((⟨"a".toList, [("k".toList, "1".toList), ("m".toList, "2".toList)]⟩ :
        StructuredElement).params ≠ []) ∧
    ∃ e' : StructuredElement,
      e'.id = (⟨"a".toList, [("k".toList, "1".toList), ("m".toList, "2".toList)]⟩ :
        StructuredElement).id ∧
      e'.params.length < 2 ∧
      e'.params = (sortParams [("k".toList, "1".toList), ("m".toList, "2".toList)]).take 1 ∧
      elemEq ⟨"a".toList, [("k".toList, "1".toList), ("m".toList, "2".toList)]⟩ e' = true ∧
      elemEq e' ⟨"a".toList, [("k".toList, "1".toList), ("m".toList, "2".toList)]⟩ = true :=
  ⟨by decide,
    c3_subset_compares_equal
      ⟨"a".toList, [("k".toList, "1".toList), ("m".toList, "2".toList)]⟩ (by decide)⟩

/-! ### The value grammar against the specification's description -/

theorem findClose_quote (rest : Str) : findClose ('"' :: rest) = some ([], rest) := by
  rw [findClose.eq_def]
  norm_num

theorem findClose_bs (d : Char) (ds : Str) :
    findClose ('\\' :: d :: ds) = (findClose ds).map (fun p => ('\\' :: d :: p.1, p.2)) := rfl

theorem findClose_other (c : Char) (rest : Str) (hq : ¬c = '"') (hb : ¬c = '\\') :
    findClose (c :: rest) = (findClose rest).map (fun p => (c :: p.1, p.2)) := by
  rw [findClose.eq_def]
  simp [hq, hb]

theorem escapedSDGo_vs_findClose : ∀ i acc, (acc = [] → ∀ cs, i ≠ '"' :: cs) →
    (∀ inner r, findClose i = some (inner, r) →
      escapedSDGo acc i = some (acc.reverse ++ inner, '"' :: r)) ∧
    (findClose i = none →
      escapedSDGo acc i = none ∨ escapedSDGo acc i = some (acc.reverse ++ i, [])) := by
  intro i
  induction i using findClose.induct with
  | case1 =>
    intro acc _
    constructor
    · intro inner r h
      rw [findClose.eq_def] at h
      exact absurd h (by simp)
    · intro _
      rw [escapedSDGo_nil]
      exact Or.inr (by simp)
  | case2 ds =>
    intro acc hacc
    have hne : acc ≠ [] := by
      intro he
      exact hacc he ds rfl
    constructor
    · intro inner r h
      rw [findClose_quote] at h
      simp only [Option.some.injEq, Prod.mk.injEq] at h
      rw [escapedSDGo_quote, if_neg hne, ← h.1, ← h.2]
      simp
    · intro h
      rw [findClose_quote] at h
      exact absurd h (by simp)
  | case3 hq =>
    intro acc _
    constructor
    · intro inner r h
      rw [findClose.eq_def] at h
      simp at h
    · intro _
      rw [escapedSDGo_bs_nil]
      exact Or.inl rfl
  | case4 d ds hq ih =>
    intro acc _
    have ihh := ih (d :: '\\' :: acc) (by simp)
    constructor
    · intro inner r h
      rw [findClose_bs] at h
      rcases hfc : findClose ds with _ | ⟨inner2, r2⟩
      · rw [hfc] at h
        exact absurd h (by simp)
      · rw [hfc] at h
        simp only [Option.map_some', Option.some.injEq, Prod.mk.injEq] at h
        rw [escapedSDGo_bs]
        rw [ihh.1 inner2 r2 hfc]
        rw [← h.1, ← h.2]
        simp
    · intro h
      rw [findClose_bs] at h
      rcases hfc : findClose ds with _ | p
      · rcases ihh.2 hfc with hh | hh
        · rw [escapedSDGo_bs, hh]
          exact Or.inl rfl
        · rw [escapedSDGo_bs, hh]
          refine Or.inr ?_
          simp
      · rw [hfc] at h
        exact absurd h (by simp)
  | case5 d ds hq hb ih =>
    intro acc _
    have ihh := ih (d :: acc) (by simp)
    constructor
    · intro inner r h
      rw [findClose_other d ds hq hb] at h
      rcases hfc : findClose ds with _ | ⟨inner2, r2⟩
      · rw [hfc] at h
        exact absurd h (by simp)
      · rw [hfc] at h
        simp only [Option.map_some', Option.some.injEq, Prod.mk.injEq] at h
        rw [escapedSDGo_other acc d ds hb hq]
        rw [ihh.1 inner2 r2 hfc]
        rw [← h.1, ← h.2]
        simp
    · intro h
      rw [findClose_other d ds hq hb] at h
      rcases hfc : findClose ds with _ | p
      · rcases ihh.2 hfc with hh | hh
        · rw [escapedSDGo_other acc d ds hb hq, hh]
          exact Or.inl rfl
        · rw [escapedSDGo_other acc d ds hb hq, hh]
          refine Or.inr ?_
          simp
      · rw [hfc] at h
        exact absurd h (by simp)

/-- C9: the value grammar equals, on every input, the specification's
description: it fails (with a structural parse failure — the function is
total, so no panic is possible) exactly when the input does not begin
with `"` or no unescaped closing `"` follows, and otherwise returns the
still-escaped inner text between the opening quote and the first
unescaped closing quote, with the two-character input `""` giving the
empty raw value. -/
theorem c9_param_value_spec (input : Str) : param_value input = specParamValue input := by
  cases input with
  | nil => rfl
  | cons c rest =>
    by_cases hc : c = '"'
    · subst hc
      cases rest with
      | nil => rfl
      | cons d ds =>
        by_cases hd : d = '"'
        · subst hd
          have h1 : tagP ['"', '"'] ('"' :: '"' :: ds) = some ds := by
            simp [tagP]
          unfold param_value specParamValue
          simp only [h1, findClose_quote]
        · have h1 : tagP ['"', '"'] ('"' :: d :: ds) = none := by
            simp [tagP, hd]
          have h2 : tagP ['"'] ('"' :: d :: ds) = some (d :: ds) := by
            simp [tagP]
          have hcond : ([] : Str) = [] → ∀ cs, d :: ds ≠ '"' :: cs := by
            intro _ cs hcs
            simp only [List.cons.injEq] at hcs
            exact hd hcs.1
          obtain ⟨hsome, hnone⟩ := escapedSDGo_vs_findClose (d :: ds) [] hcond
          unfold param_value specParamValue
          simp only [h1, h2]
          rcases hfc : findClose (d :: ds) with _ | ⟨inner, r⟩
          · rcases hnone hfc with hh | hh
            · unfold escapedSD
              simp only [hh]
            · unfold escapedSD
              simp only [hh]
              simp [tagP]
          · unfold escapedSD
            rw [hsome inner r hfc]
            simp only [List.reverse_nil, List.nil_append]
            simp [tagP]
    · have h1 : tagP ['"', '"'] (c :: rest) = none := by
        simp [tagP, hc]
      have h2 : tagP ['"'] (c :: rest) = none := by
        simp [tagP, hc]
      unfold param_value
      simp only [h1, h2]
      rw [specParamValue.eq_def]
      simp [hc]
